import Mathlib

/-!
Shallow embedding of the core logic of `app.py` (Mood & Move): the scoring
engine (`infer_emotion_from_choice`), the selection engine (`eligible`,
`pick_item`), the history builder (`build_history_from_df`), the level helper
(`calc_level`), the daily-row check-then-act logic (`get_or_create_today_row`)
and the result-step save/repair updates on a daily record.

Modelling conventions:
* Python dicts become association lists `List (String × α)`; lookup
  (`dictGet`) returns the first entry whose key matches, which agrees with
  dict lookup because every dict built by the program has unique keys.
* `datetime` values become `Int` timestamps in seconds since the epoch
  1970-01-01 (so `datetime.datetime(1970,1,1)` is `0`), and
  `(a - b).days` is floor division of the difference by 86400, matching
  Python's normalised `timedelta.days`.
* Python floats become `ℚ`; the numeric literals appearing in the data are
  exact decimals, and the claims under study concern the algorithmic
  structure (sums, argmax within a 1e-9 tolerance), not rounding.
* `random.choice(seq)` is parameterised by a natural-number draw `r` and
  returns `seq[r % len(seq)]`; a uniformly distributed `r` below the length
  yields exactly Python's uniform choice.
* Fallible code (IndexError, StopIteration, KeyError) returns `Option`,
  with `none` for a raised exception.
-/

/-- A recommendation item (quote or challenge) as stored in `data.json`:
id, text, difficulty (`x.get("difficulty", 1)` — the default is applied at
load), cooldown period in days (`int(it.get("cooldown_days", 0))`). -/
structure Item where
  id : String
  text : String
  difficulty : Int
  cooldown_days : Int
deriving DecidableEq, Repr

/-- Python dict lookup `d[k]` / `d.get(k)` on an association list: the first
entry whose key equals `k`. -/
def dictGet {α : Type} (h : List (String × α)) (k : String) : Option α :=
  (h.find? (fun p => p.1 == k)).map (fun p => p.2)

/-- Number of seconds in a day. -/
def secondsPerDay : Int := 86400

/-- Whole days `(a - b).days` for Python datetimes `a`, `b` held as second counts:
Python normalises a `timedelta` so that `.days` is the floor of the
difference in days. -/
def tdDays (a b : Int) : Int := (a - b).fdiv secondsPerDay

/-- The key Python's fallback sort uses in `pick_item`:
`history.get(x["id"], datetime.datetime(1970,1,1))`. -/
def tsKey (history : List (String × Int)) (x : Item) : Int :=
  (dictGet history x.id).getD 0

/-- The eligibility test applied to one item inside `eligible` (app.py
lines 178-183): eligible when the item is absent from the history or
`(today - last).days >= cooldown`. -/
def eligibleItem (history : List (String × Int)) (today : Int) (it : Item) : Bool :=
  match dictGet history it.id with
  | none => true
  | some last => decide (tdDays today last ≥ it.cooldown_days)

/-- Stable insertion of `x` into a list sorted by `key`: `x` goes in front
of the first element whose key is `≥ key x`. -/
def insertByKey (key : Item → Int) (x : Item) : List Item → List Item
  | [] => [x]
  | y :: ys => if key x ≤ key y then x :: y :: ys else y :: insertByKey key x ys

/-- Stable sort by `key` (insertion sort), modelling Python's stable
`list.sort(key=...)` / `sorted(..., key=...)`. -/
def isortBy (key : Item → Int) : List Item → List Item
  | [] => []
  | x :: xs => insertByKey key x (isortBy key xs)

/-- Embedding of `eligible(items, history, today)` from app.py lines 176-185: keep the
items passing the cooldown test, then sort ascending by difficulty
(stably, as `list.sort` is stable). -/
def eligible (items : List Item) (history : List (String × Int)) (today : Int) : List Item :=
  isortBy (fun x => x.difficulty) (items.filter (eligibleItem history today))

/-- Embedding of `pick_item(items, history, today)` from app.py lines 187-194, with the
`random.choice` draw made explicit as `r`.  If no item is eligible, sort
all items by their last-selected timestamp (absent ↦ epoch) and return the
first; otherwise take the minimum-difficulty tier of the (sorted) eligible
pool and return `tier[r % len(tier)]`.  `none` models the IndexError raised
on an empty items list. -/
def pick_item (items : List Item) (history : List (String × Int)) (today : Int)
    (r : Nat) : Option Item :=
  match eligible items history today with
  | [] => (isortBy (tsKey history) items).head?
  | p :: pool' =>
      let tier := (p :: pool').filter (fun x => x.difficulty == p.difficulty)
      tier[r % tier.length]?

/-- First element of `l` attaining the minimal `key` value: the element a
stable sort by `key` places at the head.  Used to state what the fallback
branch of `pick_item` returns. -/
def firstMinBy? (key : Item → Int) : List Item → Option Item
  | [] => none
  | x :: xs =>
      match firstMinBy? key xs with
      | none => some x
      | some m => if key x ≤ key m then some x else some m

-- ----------------------------------------------------------------------
-- Basic lemmas about the sort
-- ----------------------------------------------------------------------

theorem mem_insertByKey {key : Item → Int} {x y : Item} :
    ∀ {l : List Item}, y ∈ insertByKey key x l ↔ y = x ∨ y ∈ l := by
  intro l
  induction l with
  | nil => simp [insertByKey]
  | cons z zs ih =>
      simp only [insertByKey]
      split
      · simp
      · simp only [List.mem_cons, ih]
        tauto

theorem mem_isortBy {key : Item → Int} {y : Item} :
    ∀ {l : List Item}, y ∈ isortBy key l ↔ y ∈ l := by
  intro l
  induction l with
  | nil => simp [isortBy]
  | cons z zs ih =>
      simp [isortBy, mem_insertByKey, ih]

theorem head?_insertByKey {key : Item → Int} {x : Item} (l : List Item) :
    (insertByKey key x l).head? =
      some (match l.head? with
            | none => x
            | some y => if key x ≤ key y then x else y) := by
  cases l with
  | nil => simp [insertByKey]
  | cons y ys =>
      simp only [insertByKey]
      split <;> rename_i h <;> simp [h]

theorem head?_isortBy {key : Item → Int} :
    ∀ (l : List Item), (isortBy key l).head? = firstMinBy? key l := by
  intro l
  induction l with
  | nil => rfl
  | cons x xs ih =>
      rw [isortBy, head?_insertByKey, ih]
      simp only [firstMinBy?]
      cases h : firstMinBy? key xs with
      | none => rfl
      | some m => by_cases hle : key x ≤ key m <;> simp [hle]

theorem firstMinBy?_eq_none {key : Item → Int} :
    ∀ {l : List Item}, firstMinBy? key l = none ↔ l = [] := by
  intro l
  cases l with
  | nil => simp [firstMinBy?]
  | cons x xs =>
      simp only [firstMinBy?]
      constructor
      · intro h
        cases hx : firstMinBy? key xs <;> rw [hx] at h <;> simp at h
        split at h <;> simp_all
      · intro h; cases h

theorem firstMinBy?_spec {key : Item → Int} :
    ∀ {l : List Item} {m : Item}, firstMinBy? key l = some m →
      m ∈ l ∧ ∀ y ∈ l, key m ≤ key y := by
  intro l
  induction l with
  | nil => intro m h; simp [firstMinBy?] at h
  | cons x xs ih =>
      intro m h
      simp only [firstMinBy?] at h
      split at h
      · rename_i hx
        have hxs : xs = [] := firstMinBy?_eq_none.mp hx
        subst hxs
        injection h with h
        subst h
        simp
      · rename_i m' hx
        obtain ⟨hm', hmin⟩ := ih hx
        split at h <;> rename_i hle <;> injection h with h <;> subst h
        · refine ⟨List.mem_cons_self _ _, ?_⟩
          intro y hy
          rcases List.mem_cons.mp hy with rfl | hy
          · exact le_refl _
          · exact le_trans hle (hmin y hy)
        · refine ⟨List.mem_cons_of_mem _ hm', ?_⟩
          intro y hy
          rcases List.mem_cons.mp hy with rfl | hy
          · exact le_of_lt (lt_of_not_le hle)
          · exact hmin y hy

theorem isortBy_eq_nil {key : Item → Int} {l : List Item} :
    isortBy key l = [] ↔ l = [] := by
  constructor
  · intro h
    have : (isortBy key l).head? = none := by rw [h]; rfl
    rw [head?_isortBy] at this
    exact firstMinBy?_eq_none.mp this
  · intro h; subst h; rfl

-- ----------------------------------------------------------------------
-- Scoring engine
-- ----------------------------------------------------------------------

/-- An answer option of a question: key, label, and the emotion → weight
dict. -/
structure Choice where
  key : String
  label : String
  weights : List (String × ℚ)
deriving DecidableEq, Repr

/-- A question of the question bank: id, text, options. -/
structure Question where
  id : String
  text : String
  options : List Choice
deriving DecidableEq, Repr

/-- Absolute value on ℚ, as Python's `abs` computes it. -/
def ratAbs (x : ℚ) : ℚ := if x < 0 then -x else x

/-- Add `w` to the entry of `emo` in the score dict (`scores[emo] += w`).
Entries with other keys are untouched. -/
def addWeight (sc : List (String × ℚ)) (emo : String) (w : ℚ) : List (String × ℚ) :=
  sc.map (fun p => if p.1 == emo then (p.1, p.2 + w) else p)

/-- Value of the score dict at `e`, with the 0 default (a key built into the
dict always has an entry, initialised to `0.0`). -/
def scoreGet (sc : List (String × ℚ)) (e : String) : ℚ :=
  (dictGet sc e).getD 0

/-- Embedding of `infer_emotion_from_choice(choice)` from app.py lines 149-156, with the
module-level `emotions` list passed explicitly and the `random.choice` draw
made explicit as `r`.  Builds a score of `0.0` per supported emotion, adds
each weight of the chosen option whose emotion is supported, takes the
maximum score, collects the emotions within `1e-9` of it and returns a
random one together with the score dict.  `none` models the IndexError of
`emotions[0]` on an empty `emotions` list. -/
def infer_emotion_from_choice (emotions : List String) (choice : Choice) (r : Nat) :
    Option (String × List (String × ℚ)) :=
  let scores := choice.weights.foldl
    (fun sc p => if (dictGet sc p.1).isSome then addWeight sc p.1 p.2 else sc)
    (emotions.map (fun e => (e, (0 : ℚ))))
  let max_val : ℚ :=
    match scores.map (fun p => p.2) with
    | [] => 0
    | v :: vs => vs.foldl max v
  let cands := (scores.filter (fun p => ratAbs (p.2 - max_val) < 1/1000000000)).map (fun p => p.1)
  match cands with
  | [] => (emotions[0]?).map (fun e => (e, scores))
  | c :: cs => some ((c :: cs).getD (r % (c :: cs).length) c, scores)

/-- Sum of the weights carried by `weights` for emotion `e` (a dict has at
most one entry per key, so this is that weight or `0`). -/
def weightSum (weights : List (String × ℚ)) (e : String) : ℚ :=
  ((weights.filter (fun p => p.1 == e)).map (fun p => p.2)).sum

-- ----------------------------------------------------------------------
-- History builder
-- ----------------------------------------------------------------------

/-- The fields of a `logs` row that `build_history_from_df` reads: the two
optional item-id columns and the log date (`none` models a NaN cell dropped
by `dropna`; the date, when present, is the parsed `datetime`, held as a
second count). -/
structure LogRec where
  quote_id : Option String
  challenge_id : Option String
  log_date : Option Int
deriving DecidableEq, Repr

/-- One `hist[item_id] = dt`-style update keeping only the latest date, as
in app.py lines 171-173: insert when absent (dict insertion appends), else
overwrite only when `dt` is strictly later. -/
def histUpdate (h : List (String × Int)) (k : String) (dt : Int) : List (String × Int) :=
  match dictGet h k with
  | none => h ++ [(k, dt)]
  | some latest =>
      if dt > latest then h.map (fun p => if p.1 == k then (k, dt) else p) else h

/-- The inner loop of `build_history_from_df` for one column `f`
(`quote_id` or `challenge_id`): rows whose column value or date is NaN are
skipped (`dropna(subset=[col, "log_date"])`). -/
def scanColumn (f : LogRec → Option String) (h : List (String × Int))
    (rows : List LogRec) : List (String × Int) :=
  rows.foldl
    (fun h r =>
      match f r, r.log_date with
      | some iid, some dt => histUpdate h iid dt
      | _, _ => h)
    h

/-- Embedding of `build_history_from_df(df)` from app.py lines 159-174: scan the
`quote_id` column over all rows, then the `challenge_id` column, keeping
per item id the latest date seen. -/
def build_history_from_df (rows : List LogRec) : List (String × Int) :=
  if rows.isEmpty then []
  else scanColumn (fun r => r.challenge_id) (scanColumn (fun r => r.quote_id) [] rows) rows

/-- The dates at which item `id` occurs in column `f` of some row (with a
present date), in row order.  Characterises what the history builder
aggregates. -/
def occDatesField (f : LogRec → Option String) (rows : List LogRec) (id : String) :
    List Int :=
  rows.filterMap (fun r =>
    match f r, r.log_date with
    | some iid, some dt => if iid == id then some dt else none
    | _, _ => none)

/-- All dates at which item `id` occurs in the `quote_id` or `challenge_id`
field of some row. -/
def occDates (rows : List LogRec) (id : String) : List Int :=
  occDatesField (fun r => r.quote_id) rows id ++
    occDatesField (fun r => r.challenge_id) rows id

/-- Maximum of two optional dates (`none` = no occurrence yet). -/
def omax : Option Int → Option Int → Option Int
  | none, b => b
  | some a, none => some a
  | some a, some b => some (max a b)

/-- Maximum of a list of dates, `none` on the empty list. -/
def maxOf? : List Int → Option Int
  | [] => none
  | d :: ds => omax (some d) (maxOf? ds)

-- ----------------------------------------------------------------------
-- Level helper
-- ----------------------------------------------------------------------

/-- The level threshold table of app.py line 26. -/
def LEVEL_THRESHOLDS : List Int := [0, 3, 7, 15, 30, 60]

/-- Embedding of `calc_level(points)` from app.py lines 197-202: the index of the last
threshold reached, clamped below by 1. -/
def calc_level (points : Int) : Nat :=
  let lvl := LEVEL_THRESHOLDS.enum.foldl (fun lvl p => if points ≥ p.2 then p.1 else lvl) 0
  max 1 lvl

-- ----------------------------------------------------------------------
-- Daily record: creation and mutation
-- ----------------------------------------------------------------------

/-- The payload of a `logs` row for one (user, date), as inserted by
`insert_today_row` (app.py lines 291-302) and mutated by `update_row`. -/
structure Row where
  emotion : String
  choice_key : String
  question_id : String
  quote_id : String
  challenge_id : String
  completed : Bool
  points_delta : Int
deriving DecidableEq, Repr

/-- The catalog bucket of one emotion in `data.json`. -/
structure Bucket where
  quotes : List Item
  challenges : List Item
deriving DecidableEq, Repr

/-- Sequence a list of optional values (`none` as soon as one is `none`):
Python's list comprehension raises as soon as one element computation
raises. -/
def seqOptions {α : Type} : List (Option α) → Option (List α)
  | [] => some []
  | none :: _ => none
  | some x :: os =>
      match seqOptions os with
      | none => none
      | some xs => some (x :: xs)

/-- Embedding of `get_or_create_today_row()` from app.py lines 266-303.  `slot` is the
current `logs` row for (user, today) as returned by `get_today_row`
(app.py lines 63-65).  The session-refresh block (lines 271-278) only
(re)initialises the session fields `quiz_qid` / `quiz_order` /
`quiz_choice_index`, whose post-refresh values are passed here as `qid`,
`order`, `choice_index`.  `rEmo`, `rQuote`, `rChall` are the random draws
consumed by the scoring and selection engines.  The result is
`(returned row, (user, today) slot after the call, whether an insert was
performed)`; the outer `none` models a raised exception. -/
def get_or_create_today_row (slot : Option Row)
    (questions : List Question) (data : List (String × Bucket))
    (emotions : List String) (history : List (String × Int)) (now : Int)
    (qid : String) (order : List Nat) (choice_index : Option Nat)
    (rEmo rQuote rChall : Nat) :
    Option (Option Row × Option Row × Bool) :=
  match slot with
  | some row => some (some row, some row, false)
  | none =>
      match questions.find? (fun x => x.id == qid) with
      | none => none
      | some q =>
          match seqOptions (order.map (fun i => q.options[i]?)) with
          | none => none
          | some options =>
              match choice_index with
              | none => some (none, none, false)
              | some ci =>
                  match options[ci]? with
                  | none => none
                  | some choice =>
                      match infer_emotion_from_choice emotions choice rEmo with
                      | none => none
                      | some (emo, _) =>
                          match dictGet data emo with
                          | none => none
                          | some emo_data =>
                              match pick_item emo_data.quotes history now rQuote,
                                    pick_item emo_data.challenges history now rChall with
                              | some quote_item, some chall_item =>
                                  let row : Row :=
                                    { emotion := emo
                                      choice_key := choice.key
                                      question_id := q.id
                                      quote_id := quote_item.id
                                      challenge_id := chall_item.id
                                      completed := false
                                      points_delta := 0 }
                                  some (some row, some row, true)
                              | _, _ => none

/-- The mutations the result step can apply to today's row: the save button
(app.py lines 412-427) and the stale-id repair path (app.py lines 403-406). -/
inductive ResultAction where
  | save (done : Bool)
  | repair (q c : String)
deriving DecidableEq, Repr

/-- Effect of one result-step action on today's row.  The save button is
rendered with `disabled=already_saved` where `already_saved =
bool(today_row.get("completed"))`, so a row with `completed = true` cannot
be updated; otherwise the payload sets `completed` to the checkbox value
and sets `points_delta` to 1 exactly when the checkbox is checked.  The
repair path only overwrites the two item ids. -/
def apply_action (row : Row) : ResultAction → Row
  | .save done =>
      if row.completed then row
      else { row with
              completed := done
              points_delta := if done then 1 else row.points_delta }
  | .repair q c => { row with quote_id := q, challenge_id := c }

-- ----------------------------------------------------------------------
-- Selection engine lemmas
-- ----------------------------------------------------------------------

theorem mem_eligible {items : List Item} {history : List (String × Int)} {today : Int}
    {it : Item} :
    it ∈ eligible items history today ↔
      it ∈ items ∧ eligibleItem history today it = true := by
  simp [eligible, mem_isortBy, List.mem_filter]

theorem eligible_eq_nil {items : List Item} {history : List (String × Int)} {today : Int} :
    eligible items history today = [] ↔
      items.filter (eligibleItem history today) = [] := by
  unfold eligible
  exact isortBy_eq_nil

theorem eligibleItem_iff {history : List (String × Int)} {today : Int} {it : Item} :
    eligibleItem history today it = true ↔
      (dictGet history it.id = none ∨
        ∃ last, dictGet history it.id = some last ∧
          it.cooldown_days ≤ tdDays today last) := by
  cases hd : dictGet history it.id <;> simp [eligibleItem, hd, ge_iff_le]

/-- C4: an item is in the eligible pool iff it belongs to the input list and
is absent from the history or its cooldown has elapsed in whole days; and,
concretely, an item with `cooldown_days = 5` last selected exactly at `now`
is not eligible, while at `now + 5` days it is. -/
theorem eligibility_iff_absent_or_cooldown_elapsed :
    (∀ (items : List Item) (history : List (String × Int)) (today : Int) (it : Item),
        it ∈ eligible items history today ↔
          it ∈ items ∧
            (dictGet history it.id = none ∨
              ∃ last, dictGet history it.id = some last ∧
                it.cooldown_days ≤ tdDays today last)) ∧
    (eligibleItem [("it1", 1000000)] 1000000 ⟨"it1", "t", 1, 5⟩ = false ∧
      eligibleItem [("it1", 1000000)] (1000000 + 5 * secondsPerDay) ⟨"it1", "t", 1, 5⟩ = true) := by
  refine ⟨?_, by decide, by decide⟩
  intro items history today it
  rw [mem_eligible, eligibleItem_iff]

/-- C8: on any non-empty items list, `pick_item` returns an element of the
list (never `none`, never a fabricated item). -/
theorem pick_item_returns_member :
    ∀ (items : List Item) (history : List (String × Int)) (today : Int) (r : Nat),
      items ≠ [] →
      ∃ x, pick_item items history today r = some x ∧ x ∈ items := by
  intro items history today r hne
  cases h : eligible items history today with
  | nil =>
      cases hs : isortBy (tsKey history) items with
      | nil => exact absurd (isortBy_eq_nil.mp hs) hne
      | cons m ms =>
          refine ⟨m, ?_, ?_⟩
          · simp [pick_item, h, hs]
          · have : m ∈ isortBy (tsKey history) items := by rw [hs]; simp
            exact mem_isortBy.mp this
  | cons p pool' =>
      have hptier : p ∈ (p :: pool').filter (fun x => x.difficulty == p.difficulty) := by
        simp
      have hlen : 0 < ((p :: pool').filter (fun x => x.difficulty == p.difficulty)).length :=
        List.length_pos.mpr (List.ne_nil_of_mem hptier)
      have hmod := Nat.mod_lt r hlen
      refine ⟨((p :: pool').filter (fun x => x.difficulty == p.difficulty))[r % _], ?_, ?_⟩
      · simp [pick_item, h, List.getElem?_eq_getElem hmod]
      · have hmem := List.getElem_mem hmod
        have h2 : ((p :: pool').filter
            (fun x => x.difficulty == p.difficulty))[r % ((p :: pool').filter
              (fun x => x.difficulty == p.difficulty)).length] ∈
              eligible items history today := by
          rw [h]
          exact (List.mem_filter.mp hmem).1
        exact (mem_eligible.mp h2).1

/-- Witness for C8 at a concrete non-empty list. -/
theorem pick_item_returns_member_witness :
    [(⟨"a", "ta", 1, 0⟩ : Item)] ≠ [] ∧
      ∃ x, pick_item [⟨"a", "ta", 1, 0⟩] [] 0 0 = some x ∧ x ∈ [(⟨"a", "ta", 1, 0⟩ : Item)] :=
  ⟨by simp, pick_item_returns_member [⟨"a", "ta", 1, 0⟩] [] 0 0 (by simp)⟩

/-- C5: when at least one item is eligible, `pick_item` returns an eligible
item of minimal difficulty among the eligible items, and every
minimal-difficulty eligible item is a possible outcome of the random draw
(`random.choice` over the minimal tier is uniform). -/
theorem pick_item_min_difficulty_tier :
    ∀ (items : List Item) (history : List (String × Int)) (today : Int) (r : Nat),
      (∃ it ∈ items, eligibleItem history today it = true) →
      ∃ x, pick_item items history today r = some x ∧
        x ∈ items ∧ eligibleItem history today x = true ∧
        (∀ y ∈ items, eligibleItem history today y = true → x.difficulty ≤ y.difficulty) ∧
        (∀ y ∈ items, eligibleItem history today y = true → y.difficulty = x.difficulty →
          ∃ s, pick_item items history today s = some y) := by
  intro items history today r hE
  obtain ⟨it, hit, helig⟩ := hE
  have hfne : items.filter (eligibleItem history today) ≠ [] := by
    intro hnil
    rw [List.filter_eq_nil_iff] at hnil
    exact absurd helig (by simpa using hnil it hit)
  cases h : eligible items history today with
  | nil => exact absurd (eligible_eq_nil.mp h) hfne
  | cons p pool' =>
      -- the head of the sorted pool has minimal difficulty
      have hhead : firstMinBy? (fun x => x.difficulty)
          (items.filter (eligibleItem history today)) = some p := by
        have := @head?_isortBy (fun x => x.difficulty)
          (items.filter (eligibleItem history today))
        rw [show isortBy (fun x => x.difficulty) (items.filter (eligibleItem history today)) =
              eligible items history today from rfl, h] at this
        exact this.symm
      obtain ⟨hpmem, hpmin⟩ := firstMinBy?_spec hhead
      have hpmin' : ∀ y ∈ items, eligibleItem history today y = true →
          p.difficulty ≤ y.difficulty := by
        intro y hy hey
        exact hpmin y (List.mem_filter.mpr ⟨hy, hey⟩)
      have htier_iff : ∀ y, y ∈ (p :: pool').filter (fun x => x.difficulty == p.difficulty) ↔
          (y ∈ items ∧ eligibleItem history today y = true ∧ y.difficulty = p.difficulty) := by
        intro y
        rw [List.mem_filter]
        constructor
        · rintro ⟨hy, hd⟩
          have hy' : y ∈ eligible items history today := by rw [h]; exact hy
          obtain ⟨h1, h2⟩ := mem_eligible.mp hy'
          exact ⟨h1, h2, by simpa using hd⟩
        · rintro ⟨h1, h2, h3⟩
          have hy' : y ∈ eligible items history today := mem_eligible.mpr ⟨h1, h2⟩
          rw [h] at hy'
          exact ⟨hy', by simpa using h3⟩
      have hptier : p ∈ (p :: pool').filter (fun x => x.difficulty == p.difficulty) := by simp
      have hlen : 0 < ((p :: pool').filter (fun x => x.difficulty == p.difficulty)).length :=
        List.length_pos.mpr (List.ne_nil_of_mem hptier)
      have hmod := Nat.mod_lt r hlen
      set tier := (p :: pool').filter (fun x => x.difficulty == p.difficulty) with htier
      refine ⟨tier[r % tier.length], ?_, ?_, ?_, ?_, ?_⟩
      · simp only [pick_item, h]
        rw [← htier]
        exact List.getElem?_eq_getElem hmod
      · exact ((htier_iff _).mp (List.getElem_mem hmod)).1
      · exact ((htier_iff _).mp (List.getElem_mem hmod)).2.1
      · intro y hy hey
        have hxd := ((htier_iff _).mp (List.getElem_mem hmod)).2.2
        rw [hxd]
        exact hpmin' y hy hey
      · intro y hy hey hyd
        have hxd := ((htier_iff _).mp (List.getElem_mem hmod)).2.2
        have hytier : y ∈ tier := (htier_iff y).mpr ⟨hy, hey, by rw [hyd, hxd]⟩
        obtain ⟨i, hi, hiy⟩ := List.mem_iff_getElem.mp hytier
        refine ⟨i, ?_⟩
        have himod : i % tier.length = i := Nat.mod_eq_of_lt hi
        simp only [pick_item, h]
        rw [← htier, himod, List.getElem?_eq_getElem hi, hiy]

/-- Witness for C5: two always-eligible items with difficulties 2 and 1. -/
theorem pick_item_min_difficulty_tier_witness :
    (∃ it ∈ [(⟨"a", "ta", 2, 0⟩ : Item), ⟨"b", "tb", 1, 0⟩],
        eligibleItem [] 0 it = true) ∧
    ∃ x, pick_item [(⟨"a", "ta", 2, 0⟩ : Item), ⟨"b", "tb", 1, 0⟩] [] 0 0 = some x ∧
      x ∈ [(⟨"a", "ta", 2, 0⟩ : Item), ⟨"b", "tb", 1, 0⟩] ∧
      eligibleItem [] 0 x = true ∧
      (∀ y ∈ [(⟨"a", "ta", 2, 0⟩ : Item), ⟨"b", "tb", 1, 0⟩],
        eligibleItem [] 0 y = true → x.difficulty ≤ y.difficulty) ∧
      (∀ y ∈ [(⟨"a", "ta", 2, 0⟩ : Item), ⟨"b", "tb", 1, 0⟩],
        eligibleItem [] 0 y = true → y.difficulty = x.difficulty →
          ∃ s, pick_item [(⟨"a", "ta", 2, 0⟩ : Item), ⟨"b", "tb", 1, 0⟩] [] 0 s = some y) :=
  ⟨⟨⟨"a", "ta", 2, 0⟩, by decide⟩,
    pick_item_min_difficulty_tier _ _ _ 0 ⟨⟨"a", "ta", 2, 0⟩, by decide⟩⟩

-- Concrete scenario for C3: two items of the same emotion, both with
-- cooldown 30 days and both last selected 10 days before `cexNow`.
def cexA : Item := ⟨"a", "ta", 1, 30⟩
def cexB : Item := ⟨"b", "tb", 1, 30⟩
def cexItems : List Item := [cexA, cexB]
def cexNow : Int := 2000000000
def cexHist : List (String × Int) := [("a", cexNow - 10 * secondsPerDay), ("b", cexNow - 10 * secondsPerDay)]

/-- C3 counterexample: with both items on cooldown and tied for the oldest
last-selected timestamp, the fallback of `pick_item` never consults the
random source — it returns the first tied item `cexA` for every draw and
can never return `cexB`, so the tied items are not chosen uniformly at
random. -/
theorem pick_item_fallback_tie_not_uniform :
    (¬ ∃ r, pick_item cexItems cexHist cexNow r = some cexB) ∧
    (∀ r, pick_item cexItems cexHist cexNow r = some cexA) ∧
    cexA ≠ cexB ∧ cexB ∈ cexItems ∧
    eligible cexItems cexHist cexNow = [] ∧
    tsKey cexHist cexA = tsKey cexHist cexB := by
  have hall : ∀ r, pick_item cexItems cexHist cexNow r = some cexA := fun r => rfl
  refine ⟨?_, hall, by decide, by simp [cexItems], rfl, rfl⟩
  rintro ⟨r, hr⟩
  rw [hall r] at hr
  exact absurd (Option.some.inj hr) (by decide)

/-- C3 amended: when no item is eligible, `pick_item` waives eligibility and
returns the item with the oldest (absent treated as the epoch 1970-01-01)
last-selected timestamp; among items tied for the oldest timestamp the
first one in input-list order is returned, deterministically (the result
does not depend on the random draw). -/
theorem pick_item_fallback_oldest_first :
    ∀ (items : List Item) (history : List (String × Int)) (today : Int) (r : Nat),
      items ≠ [] → eligible items history today = [] →
      ∃ x, pick_item items history today r = some x ∧
        firstMinBy? (tsKey history) items = some x ∧
        x ∈ items ∧ (∀ y ∈ items, tsKey history x ≤ tsKey history y) := by
  intro items history today r hne hpool
  cases hm : firstMinBy? (tsKey history) items with
  | none => exact absurd (firstMinBy?_eq_none.mp hm) hne
  | some m =>
      obtain ⟨hmem, hmin⟩ := firstMinBy?_spec hm
      refine ⟨m, ?_, rfl, hmem, hmin⟩
      simp only [pick_item, hpool]
      rw [head?_isortBy, hm]

/-- Witness for the amended C3 at the concrete tied scenario. -/
theorem pick_item_fallback_oldest_first_witness :
    cexItems ≠ [] ∧ eligible cexItems cexHist cexNow = [] ∧
    ∃ x, pick_item cexItems cexHist cexNow 0 = some x ∧
      firstMinBy? (tsKey cexHist) cexItems = some x ∧
      x ∈ cexItems ∧ (∀ y ∈ cexItems, tsKey cexHist x ≤ tsKey cexHist y) :=
  ⟨by simp [cexItems], rfl,
    pick_item_fallback_oldest_first cexItems cexHist cexNow 0 (by simp [cexItems]) rfl⟩

-- ----------------------------------------------------------------------
-- Level helper lemmas
-- ----------------------------------------------------------------------

theorem calc_level_closed (p : Int) :
    calc_level p =
      if p ≥ 60 then 5 else if p ≥ 30 then 4 else if p ≥ 15 then 3
      else if p ≥ 7 then 2 else 1 := by
  show max 1 (if p ≥ 60 then 5 else if p ≥ 30 then 4 else if p ≥ 15 then 3
      else if p ≥ 7 then 2 else if p ≥ 3 then 1 else if p ≥ 0 then 0 else 0) = _
  split_ifs <;> rfl

/-- C10: `calc_level` always lands in 1..5 (the `max(1, lvl)` clamp and the
6-entry threshold table), and is monotone in the points value. -/
theorem calc_level_range_and_monotone :
    (∀ p : Int, 1 ≤ calc_level p ∧ calc_level p ≤ 5) ∧
    (∀ p1 p2 : Int, p1 ≤ p2 → calc_level p1 ≤ calc_level p2) := by
  constructor
  · intro p
    rw [calc_level_closed]
    split_ifs <;> omega
  · intro p1 p2 h
    rw [calc_level_closed, calc_level_closed]
    split_ifs <;> omega

/-- Witness for C10 at points 2 and 10. -/
theorem calc_level_range_and_monotone_witness :
    (2 : Int) ≤ 10 ∧ calc_level 2 ≤ calc_level 10 :=
  ⟨by decide, calc_level_range_and_monotone.2 2 10 (by decide)⟩

-- ----------------------------------------------------------------------
-- Daily record mutation lemmas
-- ----------------------------------------------------------------------

/-- The invariant C2 asserts about a daily record: an uncompleted record
carries no point, and the point stored is 0 or 1. -/
def RowInv (r : Row) : Prop :=
  (r.completed = false → r.points_delta = 0) ∧ (r.points_delta = 0 ∨ r.points_delta = 1)

theorem rowInv_apply_action {r : Row} (h : RowInv r) (a : ResultAction) :
    RowInv (apply_action r a) := by
  obtain ⟨h1, h2⟩ := h
  cases a with
  | repair q c => exact ⟨h1, h2⟩
  | save done =>
      simp only [apply_action]
      cases hc : r.completed with
      | true => simpa [hc] using ⟨h1, h2⟩
      | false =>
          cases done with
          | true => simp [hc, RowInv]
          | false => simp [hc, RowInv, h1 hc]

theorem rowInv_foldl {row0 : Row} (h : RowInv row0) :
    ∀ acts : List ResultAction, RowInv (acts.foldl apply_action row0) := by
  intro acts
  induction acts generalizing row0 with
  | nil => exact h
  | cons a as ih => exact ih (rowInv_apply_action h a)

theorem apply_action_points_change {r : Row} (h : RowInv r) (a : ResultAction)
    (hne : (apply_action r a).points_delta ≠ r.points_delta) :
    r.points_delta = 0 ∧ r.completed = false ∧
      (apply_action r a).points_delta = 1 ∧ (apply_action r a).completed = true := by
  cases a with
  | repair q c => exact absurd rfl hne
  | save done =>
      cases hc : r.completed with
      | true => simp [apply_action, hc] at hne
      | false =>
          cases done with
          | false => simp [apply_action, hc] at hne
          | true =>
              refine ⟨h.1 hc, rfl, ?_, ?_⟩ <;> simp [apply_action, hc]

/-- C2: saving with completion=true on an uncompleted record sets
`completed=true` and `points_delta=1` in one coupled update; a completed
record admits no further save (the button is disabled); saving with
completion=false keeps `completed=false` and leaves `points_delta` alone;
consequently, over any sequence of result-step actions from a freshly
inserted record, `completed=false` implies `points_delta=0`, the stored
points are 0 or 1, and `points_delta` changes only by the single 0→1
transition coupled with `completed` going false→true. -/
theorem save_couples_completed_and_points :
    (∀ row : Row, row.completed = false →
        apply_action row (.save true) =
          { row with completed := true, points_delta := 1 }) ∧
    (∀ (row : Row) (d : Bool), row.completed = true →
        apply_action row (.save d) = row) ∧
    (∀ row : Row, row.completed = false →
        (apply_action row (.save false)).completed = false ∧
        (apply_action row (.save false)).points_delta = row.points_delta) ∧
    (∀ row0 : Row, row0.completed = false → row0.points_delta = 0 →
      ∀ acts : List ResultAction,
        ((acts.foldl apply_action row0).completed = false →
            (acts.foldl apply_action row0).points_delta = 0) ∧
        ((acts.foldl apply_action row0).points_delta = 0 ∨
            (acts.foldl apply_action row0).points_delta = 1)) ∧
    (∀ row0 : Row, row0.completed = false → row0.points_delta = 0 →
      ∀ (acts : List ResultAction) (a : ResultAction),
        (apply_action (acts.foldl apply_action row0) a).points_delta ≠
            (acts.foldl apply_action row0).points_delta →
          (acts.foldl apply_action row0).points_delta = 0 ∧
            (acts.foldl apply_action row0).completed = false ∧
            (apply_action (acts.foldl apply_action row0) a).points_delta = 1 ∧
            (apply_action (acts.foldl apply_action row0) a).completed = true) := by
  refine ⟨?_, ?_, ?_, ?_, ?_⟩
  · intro row hc
    simp [apply_action, hc]
  · intro row d hc
    simp [apply_action, hc]
  · intro row hc
    simp [apply_action, hc]
  · intro row0 hc hp acts
    exact rowInv_foldl ⟨fun _ => hp, Or.inl hp⟩ acts
  · intro row0 hc hp acts a hne
    exact apply_action_points_change (rowInv_foldl ⟨fun _ => hp, Or.inl hp⟩ acts) a hne

/-- A concrete freshly inserted record, for witnesses. -/
def freshRow : Row :=
  { emotion := "행복", choice_key := "kpop_dance", question_id := "q1"
    quote_id := "qa", challenge_id := "ca", completed := false, points_delta := 0 }

/-- Witness for C2 at a concrete fresh record and action sequence. -/
theorem save_couples_completed_and_points_witness :
    freshRow.completed = false ∧ freshRow.points_delta = 0 ∧
    apply_action freshRow (.save true) =
      { freshRow with completed := true, points_delta := 1 } ∧
    (([ResultAction.save true].foldl apply_action freshRow).completed = false →
        ([ResultAction.save true].foldl apply_action freshRow).points_delta = 0) ∧
    (([ResultAction.save true].foldl apply_action freshRow).points_delta = 0 ∨
        ([ResultAction.save true].foldl apply_action freshRow).points_delta = 1) :=
  ⟨rfl, rfl, save_couples_completed_and_points.1 freshRow rfl,
    (save_couples_completed_and_points.2.2.2.1 freshRow rfl rfl [.save true]).1,
    (save_couples_completed_and_points.2.2.2.1 freshRow rfl rfl [.save true]).2⟩

/-- C1: `get_or_create_today_row` first queries the (user, today) slot; when
a row already exists it is returned unchanged and no insert happens, and an
insert is performed only when the query returned nothing — the inserted row
is then both returned and stored, starting uncompleted with 0 points.
Hence at most one row is ever created per (user, date) slot. -/
theorem get_or_create_today_row_check_then_act :
    ∀ (slot : Option Row) (questions : List Question) (data : List (String × Bucket))
      (emotions : List String) (history : List (String × Int)) (now : Int)
      (qid : String) (order : List Nat) (choice_index : Option Nat)
      (rEmo rQuote rChall : Nat),
      (∀ row, slot = some row →
        get_or_create_today_row slot questions data emotions history now
            qid order choice_index rEmo rQuote rChall =
          some (some row, some row, false)) ∧
      (∀ ret slot' ins,
        get_or_create_today_row slot questions data emotions history now
            qid order choice_index rEmo rQuote rChall = some (ret, slot', ins) →
        ins = true →
          slot = none ∧ ∃ newRow, ret = some newRow ∧ slot' = some newRow ∧
            newRow.completed = false ∧ newRow.points_delta = 0) := by
  intro slot questions data emotions history now qid order choice_index rEmo rQuote rChall
  constructor
  · intro row h
    subst h
    rfl
  · intro ret slot' ins hres hins
    cases slot with
    | some row =>
        simp only [get_or_create_today_row, Option.some.injEq, Prod.mk.injEq] at hres
        obtain ⟨-, -, h3⟩ := hres
        rw [← h3] at hins
        exact absurd hins (by simp)
    | none =>
        simp only [get_or_create_today_row] at hres
        split at hres
        · exact Option.noConfusion hres
        · split at hres
          · exact Option.noConfusion hres
          · split at hres
            · simp only [Option.some.injEq, Prod.mk.injEq] at hres
              obtain ⟨-, -, h3⟩ := hres
              rw [← h3] at hins
              exact absurd hins (by simp)
            · split at hres
              · exact Option.noConfusion hres
              · split at hres
                · exact Option.noConfusion hres
                · split at hres
                  · exact Option.noConfusion hres
                  · split at hres
                    · simp only [Option.some.injEq, Prod.mk.injEq] at hres
                      obtain ⟨h1, h2, h3⟩ := hres
                      exact ⟨rfl, _, h1.symm, h2.symm, rfl, rfl⟩
                    · exact Option.noConfusion hres


-- Concrete inputs for the C1 witness: one question with one option, a
-- catalog with one bucket, an existing row and a fresh run that inserts.
def w1Choice : Choice := ⟨"kpop_dance", "label", [("행복", 1)]⟩
def w1Q : Question := ⟨"q1", "text", [w1Choice]⟩
def w1Bucket : Bucket := ⟨[⟨"qa", "tq", 1, 0⟩], [⟨"ca", "tc", 1, 0⟩]⟩
def w1Row : Row :=
  { emotion := "행복", choice_key := "kpop_dance", question_id := "q1"
    quote_id := "qa", challenge_id := "ca", completed := false, points_delta := 0 }

/-- Evaluation of the concrete fresh run used by the C1 witness: on an empty
slot with a made choice it inserts exactly `w1Row`. -/
theorem w1_run :
    get_or_create_today_row none [w1Q] [("행복", w1Bucket)] ["행복"] [] 0
      "q1" [0] (some 0) 0 0 0 = some (some w1Row, some w1Row, true) := by
  norm_num [get_or_create_today_row, infer_emotion_from_choice, dictGet, addWeight,
    seqOptions, pick_item, eligible, eligibleItem, isortBy, insertByKey, tsKey,
    ratAbs, w1Choice, w1Q, w1Bucket, w1Row, List.find?, List.filter, List.foldl,
    List.filterMap]

/-- Witness for C1: an occupied slot is returned unchanged with no insert,
and the concrete fresh run that did insert had an empty slot and stored an
uncompleted zero-point row. -/
theorem get_or_create_today_row_check_then_act_witness :
    (get_or_create_today_row (some freshRow) [w1Q] [("행복", w1Bucket)] ["행복"] [] 0
        "q1" [0] (some 0) 0 0 0 = some (some freshRow, some freshRow, false)) ∧
    ((none : Option Row) = none ∧
      ∃ newRow, (some w1Row : Option Row) = some newRow ∧
        (some w1Row : Option Row) = some newRow ∧
        newRow.completed = false ∧ newRow.points_delta = 0) :=
  ⟨(get_or_create_today_row_check_then_act (some freshRow) [w1Q] [("행복", w1Bucket)]
      ["행복"] [] 0 "q1" [0] (some 0) 0 0 0).1 freshRow rfl,
   (get_or_create_today_row_check_then_act none [w1Q] [("행복", w1Bucket)]
      ["행복"] [] 0 "q1" [0] (some 0) 0 0 0).2 (some w1Row) (some w1Row) true w1_run rfl⟩

-- ----------------------------------------------------------------------
-- Scoring engine lemmas
-- ----------------------------------------------------------------------

/-- The score dict built by `infer_emotion_from_choice` before the argmax. -/
def scoresOf (emotions : List String) (choice : Choice) : List (String × ℚ) :=
  choice.weights.foldl
    (fun sc p => if (dictGet sc p.1).isSome then addWeight sc p.1 p.2 else sc)
    (emotions.map (fun e => (e, (0 : ℚ))))

/-- The maximum score value computed by `infer_emotion_from_choice`. -/
def maxValOf (scores : List (String × ℚ)) : ℚ :=
  match scores.map (fun p => p.2) with
  | [] => 0
  | v :: vs => vs.foldl max v

/-- The candidate emotions within tolerance of the maximum score. -/
def candsOf (emotions : List String) (choice : Choice) : List String :=
  ((scoresOf emotions choice).filter
    (fun p => ratAbs (p.2 - maxValOf (scoresOf emotions choice)) < 1/1000000000)).map
    (fun p => p.1)

theorem infer_eq_match (emotions : List String) (choice : Choice) (r : Nat) :
    infer_emotion_from_choice emotions choice r =
      match candsOf emotions choice with
      | [] => (emotions[0]?).map (fun e => (e, scoresOf emotions choice))
      | c :: cs =>
          some ((c :: cs).getD (r % (c :: cs).length) c, scoresOf emotions choice) := rfl

theorem dictGet_cons {α : Type} (p : String × α) (l : List (String × α)) (k : String) :
    dictGet (p :: l) k = if p.1 == k then some p.2 else dictGet l k := by
  simp only [dictGet, List.find?_cons]
  cases h : (p.1 == k) <;> simp [h]

theorem weightSum_cons (p : String × ℚ) (ws : List (String × ℚ)) (e : String) :
    weightSum (p :: ws) e = (if p.1 = e then p.2 else 0) + weightSum ws e := by
  by_cases h : p.1 = e <;> simp [weightSum, List.filter_cons, h]

theorem keys_addWeight (sc : List (String × ℚ)) (e : String) (w : ℚ) :
    (addWeight sc e w).map (fun p => p.1) = sc.map (fun p => p.1) := by
  unfold addWeight
  rw [List.map_map]
  apply List.map_congr_left
  intro p _
  by_cases h : p.1 = e <;> simp [h]

theorem dictGet_addWeight (sc : List (String × ℚ)) (e e' : String) (w : ℚ) :
    dictGet (addWeight sc e w) e' =
      if e' = e then (dictGet sc e').map (fun v => v + w) else dictGet sc e' := by
  induction sc with
  | nil => by_cases h : e' = e <;> simp [addWeight, dictGet, h]
  | cons p ps ih =>
      show dictGet ((if p.1 == e then (p.1, p.2 + w) else p) :: addWeight ps e w) e' = _
      by_cases hpe : p.1 = e <;> by_cases hpe' : p.1 = e'
      · have he : e' = e := hpe'.symm.trans hpe
        simp [dictGet_cons, hpe, hpe', he]
      · have he : ¬(e' = e) := fun hh => hpe' (hpe.trans hh.symm)
        have hne : ¬(e = e') := fun hh => he hh.symm
        simp [dictGet_cons, hpe, hpe', he, hne, ih]
      · have he : ¬(e' = e) := fun hh => hpe (hpe'.trans hh)
        simp [dictGet_cons, hpe, hpe', he]
      · simp [dictGet_cons, hpe, hpe', ih]

theorem scoresFold_get (ws : List (String × ℚ)) :
    ∀ (sc : List (String × ℚ)) (e : String),
      dictGet (ws.foldl
          (fun sc p => if (dictGet sc p.1).isSome then addWeight sc p.1 p.2 else sc) sc) e
        = (dictGet sc e).map (fun v => v + weightSum ws e) := by
  induction ws with
  | nil =>
      intro sc e
      cases h : dictGet sc e <;> simp [h, weightSum]
  | cons p ws ih =>
      intro sc e
      rw [List.foldl_cons, ih, weightSum_cons]
      by_cases hg : (dictGet sc p.1).isSome
      · rw [if_pos hg, dictGet_addWeight]
        by_cases hep : e = p.1
        · rw [if_pos hep]
          subst hep
          cases h : dictGet sc p.1 <;> simp [h, add_assoc]
        · rw [if_neg hep]
          have : ¬(p.1 = e) := fun hh => hep hh.symm
          cases h : dictGet sc e <;> simp [h, this]
      · rw [if_neg hg]
        by_cases hep : p.1 = e
        · subst hep
          have h0 : dictGet sc p.1 = none := by
            cases h : dictGet sc p.1 <;> simp [h] at hg ⊢
          simp [h0]
        · cases h : dictGet sc e <;> simp [h, hep]

theorem scoresFold_keys (ws : List (String × ℚ)) :
    ∀ (sc : List (String × ℚ)),
      (ws.foldl
          (fun sc p => if (dictGet sc p.1).isSome then addWeight sc p.1 p.2 else sc) sc).map
          (fun p => p.1)
        = sc.map (fun p => p.1) := by
  induction ws with
  | nil => intro sc; rfl
  | cons p ws ih =>
      intro sc
      rw [List.foldl_cons]
      by_cases hg : (dictGet sc p.1).isSome
      · rw [if_pos hg, ih, keys_addWeight]
      · rw [if_neg hg, ih]

theorem dictGet_initScores (emotions : List String) (k : String) :
    dictGet (emotions.map (fun e => (e, (0 : ℚ)))) k =
      if k ∈ emotions then some 0 else none := by
  induction emotions with
  | nil => simp [dictGet]
  | cons e es ih =>
      show dictGet ((e, (0 : ℚ)) :: es.map (fun e => (e, (0 : ℚ)))) k = _
      by_cases h : e = k
      · simp [dictGet_cons, h]
      · have h' : ¬(k = e) := fun hh => h hh.symm
        simp [dictGet_cons, h, h', ih]

theorem keys_scoresOf (emotions : List String) (choice : Choice) :
    (scoresOf emotions choice).map (fun p => p.1) = emotions := by
  rw [scoresOf, scoresFold_keys, List.map_map]
  have hc : ((fun p => p.1) ∘ fun e => ((e : String), (0 : ℚ))) = id := rfl
  rw [hc, List.map_id]

theorem dictGet_scoresOf (emotions : List String) (choice : Choice) :
    ∀ e ∈ emotions, dictGet (scoresOf emotions choice) e =
      some (weightSum choice.weights e) := by
  intro e he
  rw [scoresOf, scoresFold_get, dictGet_initScores, if_pos he]
  simp

theorem dictGet_eq_of_mem_nodup :
    ∀ {sc : List (String × ℚ)}, (sc.map (fun p => p.1)).Nodup →
      ∀ {k : String} {v : ℚ}, (k, v) ∈ sc → dictGet sc k = some v := by
  intro sc
  induction sc with
  | nil => intro _ k v h; simp at h
  | cons p ps ih =>
      intro hnd k v hmem
      rw [List.map_cons, List.nodup_cons] at hnd
      rcases List.mem_cons.mp hmem with rfl | hmem'
      · simp [dictGet_cons]
      · have hk : ¬(p.1 == k) = true := by
          simp only [beq_iff_eq]
          intro hh
          exact hnd.1 (hh ▸ List.mem_map.mpr ⟨(k, v), hmem', rfl⟩)
        rw [dictGet_cons, if_neg (by simpa using hk)]
        exact ih hnd.2 hmem'

theorem foldl_max_spec :
    ∀ (l : List ℚ) (a : ℚ),
      a ≤ l.foldl max a ∧ (∀ x ∈ l, x ≤ l.foldl max a) ∧
        (l.foldl max a = a ∨ l.foldl max a ∈ l) := by
  intro l
  induction l with
  | nil => intro a; exact ⟨le_refl a, by simp, Or.inl rfl⟩
  | cons v vs ih =>
      intro a
      obtain ⟨h1, h2, h3⟩ := ih (max a v)
      rw [List.foldl_cons]
      refine ⟨le_trans (le_max_left a v) h1, ?_, ?_⟩
      · intro x hx
        rcases List.mem_cons.mp hx with rfl | hx'
        · exact le_trans (le_max_right _ _) h1
        · exact h2 x hx'
      · rcases h3 with he | hm
        · rcases max_choice a v with hav | hav
          · exact Or.inl (he.trans hav)
          · exact Or.inr (by rw [he, hav]; simp)
        · exact Or.inr (List.mem_cons_of_mem _ hm)

/-- Shared success lemma for the scoring engine: on a non-empty supported
set, `infer_emotion_from_choice` succeeds, returns the score dict keyed
exactly by the supported emotions with each score the summed supported
weights, and the returned emotion's score entry is within tolerance of the
maximum score value. -/
theorem infer_emotion_success :
    ∀ (emotions : List String) (choice : Choice) (r : Nat),
      emotions ≠ [] →
      ∃ emo scores, infer_emotion_from_choice emotions choice r = some (emo, scores) ∧
        scores = scoresOf emotions choice ∧
        scores.map (fun p => p.1) = emotions ∧
        (∀ e ∈ emotions, dictGet scores e = some (weightSum choice.weights e)) ∧
        emo ∈ emotions ∧
        ∃ M, M ∈ scores.map (fun p => p.2) ∧
          (∀ x ∈ scores.map (fun p => p.2), x ≤ M) ∧
          ∃ pe ∈ scores, pe.1 = emo ∧ ratAbs (pe.2 - M) < 1/1000000000 := by
  intro emotions choice r hne
  have hkeys := keys_scoresOf emotions choice
  have hscne : scoresOf emotions choice ≠ [] := by
    intro hh
    rw [hh] at hkeys
    exact hne hkeys.symm
  cases hv : (scoresOf emotions choice).map (fun p => p.2) with
  | nil => exact absurd (List.map_eq_nil_iff.mp hv) hscne
  | cons v vs =>
      obtain ⟨hm1, hm2, hm3⟩ := foldl_max_spec vs v
      have hmaxeq : maxValOf (scoresOf emotions choice) = vs.foldl max v := by
        unfold maxValOf
        rw [hv]
      have hMmem : vs.foldl max v ∈ (scoresOf emotions choice).map (fun p => p.2) := by
        rw [hv]
        rcases hm3 with he | hm
        · rw [he]; exact List.mem_cons_self _ _
        · exact List.mem_cons_of_mem _ hm
      have hMbound : ∀ x ∈ (scoresOf emotions choice).map (fun p => p.2),
          x ≤ vs.foldl max v := by
        rw [hv]
        intro x hx
        rcases List.mem_cons.mp hx with rfl | hx'
        · exact hm1
        · exact hm2 x hx'
      obtain ⟨pM, hpM, hpMv⟩ := List.mem_map.mp hMmem
      have hpfil : pM ∈ (scoresOf emotions choice).filter
          (fun p => ratAbs (p.2 - maxValOf (scoresOf emotions choice)) < 1/1000000000) := by
        refine List.mem_filter.mpr ⟨hpM, ?_⟩
        rw [decide_eq_true_eq, hmaxeq, hpMv, sub_self]
        norm_num [ratAbs]
      have hcne : candsOf emotions choice ≠ [] :=
        List.ne_nil_of_mem (List.mem_map.mpr ⟨pM, hpfil, rfl⟩)
      cases hc : candsOf emotions choice with
      | nil => exact absurd hc hcne
      | cons c cs =>
          have hlen : r % (c :: cs).length < (c :: cs).length :=
            Nat.mod_lt _ (Nat.succ_pos _)
          have hres : infer_emotion_from_choice emotions choice r =
              some ((c :: cs).getD (r % (c :: cs).length) c, scoresOf emotions choice) := by
            rw [infer_eq_match, hc]
          have hemoc : (c :: cs).getD (r % (c :: cs).length) c ∈ candsOf emotions choice := by
            rw [hc, List.getD_eq_getElem _ _ hlen]
            exact List.getElem_mem hlen
          obtain ⟨pE, hpEfil, hpEk⟩ := List.mem_map.mp hemoc
          obtain ⟨hpEsc, hpEpred⟩ := List.mem_filter.mp hpEfil
          have hemo_mem : (c :: cs).getD (r % (c :: cs).length) c ∈ emotions := by
            rw [← hkeys]
            exact hpEk ▸ List.mem_map.mpr ⟨pE, hpEsc, rfl⟩
          refine ⟨_, scoresOf emotions choice, hres, rfl, hkeys,
            dictGet_scoresOf emotions choice, hemo_mem,
            vs.foldl max v, hMmem, hMbound, pE, hpEsc, hpEk, ?_⟩
          have ht := of_decide_eq_true hpEpred
          rwa [hmaxeq] at ht

/-- C6: on a non-empty supported-emotion set, the score mapping returned by
`infer_emotion_from_choice` has exactly one entry per supported emotion (in
order), each entry equal to the sum of that emotion's weights in the
option's weight mapping (unsupported weights ignored), and the returned
emotion's score is within 1e-9 (= 1/1000000000) of the mapping's maximum
value. -/
theorem infer_emotion_scores_exact_and_argmax :
    ∀ (emotions : List String) (choice : Choice) (r : Nat),
      emotions ≠ [] → emotions.Nodup →
      ∃ emo scores, infer_emotion_from_choice emotions choice r = some (emo, scores) ∧
        scores.map (fun p => p.1) = emotions ∧
        (∀ e ∈ emotions, scoreGet scores e = weightSum choice.weights e) ∧
        emo ∈ emotions ∧
        ∃ M, M ∈ scores.map (fun p => p.2) ∧
          (∀ x ∈ scores.map (fun p => p.2), x ≤ M) ∧
          ratAbs (scoreGet scores emo - M) < 1/1000000000 := by
  intro emotions choice r hne hnd
  obtain ⟨emo, scores, hres, hsc, hkeys, hget, hemo, M, hM1, hM2, pE, hpE, hpEk, hpEtol⟩ :=
    infer_emotion_success emotions choice r hne
  refine ⟨emo, scores, hres, hkeys, ?_, hemo, M, hM1, hM2, ?_⟩
  · intro e he
    rw [scoreGet, hget e he]
    rfl
  · have hnd' : (scores.map (fun p => p.1)).Nodup := by rw [hkeys]; exact hnd
    have hdg : dictGet scores emo = some pE.2 := by
      apply dictGet_eq_of_mem_nodup hnd'
      rw [← hpEk, Prod.mk.eta]
      exact hpE
    rw [scoreGet, hdg]
    simpa using hpEtol

/-- Witness for C6 on two supported emotions and a single positive weight. -/
theorem infer_emotion_scores_exact_and_argmax_witness :
    (["행복", "슬픔"] : List String) ≠ [] ∧ (["행복", "슬픔"] : List String).Nodup ∧
    ∃ emo scores,
      infer_emotion_from_choice ["행복", "슬픔"] ⟨"k", "l", [("행복", 1)]⟩ 0 =
        some (emo, scores) ∧
      scores.map (fun p => p.1) = ["행복", "슬픔"] ∧
      (∀ e ∈ (["행복", "슬픔"] : List String),
        scoreGet scores e = weightSum [("행복", 1)] e) ∧
      emo ∈ (["행복", "슬픔"] : List String) ∧
      ∃ M, M ∈ scores.map (fun p => p.2) ∧
        (∀ x ∈ scores.map (fun p => p.2), x ≤ M) ∧
        ratAbs (scoreGet scores emo - M) < 1/1000000000 :=
  ⟨by simp, by decide,
    infer_emotion_scores_exact_and_argmax ["행복", "슬픔"] ⟨"k", "l", [("행복", 1)]⟩ 0
      (by simp) (by decide)⟩

/-- C7 counterexample: on an empty supported-emotion set the function does
not fall back to a default label — `emotions[0]` raises IndexError
(`none` in the embedding), so the claim "no error conditions for any
input" is false. -/
theorem infer_emotion_empty_set_fails :
    infer_emotion_from_choice [] ⟨"k", "l", [("행복", 1)]⟩ 0 = none := rfl

theorem scoresFold_nil_init (ws : List (String × ℚ)) :
    ws.foldl (fun sc p => if (dictGet sc p.1).isSome then addWeight sc p.1 p.2 else sc) []
      = [] := by
  induction ws with
  | nil => rfl
  | cons p ws ih => exact ih

/-- C7 amended: `infer_emotion_from_choice` has no error condition whenever
the supported-emotion set is non-empty (it always returns a label from that
set); on an empty supported set it fails with an IndexError from
`emotions[0]` instead of returning a default label. -/
theorem infer_emotion_no_failure_on_nonempty :
    (∀ (choice : Choice) (r : Nat), infer_emotion_from_choice [] choice r = none) ∧
    (∀ (emotions : List String) (choice : Choice) (r : Nat), emotions ≠ [] →
      ∃ emo scores, infer_emotion_from_choice emotions choice r = some (emo, scores) ∧
        emo ∈ emotions) := by
  constructor
  · intro choice r
    rw [infer_eq_match]
    have h0 : scoresOf [] choice = [] := scoresFold_nil_init choice.weights
    have hc : candsOf [] choice = [] := by
      unfold candsOf
      rw [h0]
      rfl
    rw [hc]
    rfl
  · intro emotions choice r hne
    obtain ⟨emo, scores, hres, -, -, -, hemo, -⟩ :=
      infer_emotion_success emotions choice r hne
    exact ⟨emo, scores, hres, hemo⟩

/-- Witness for the amended C7 on a singleton supported set. -/
theorem infer_emotion_no_failure_on_nonempty_witness :
    (["행복"] : List String) ≠ [] ∧
    ∃ emo scores, infer_emotion_from_choice ["행복"] ⟨"k", "l", []⟩ 3 = some (emo, scores) ∧
      emo ∈ (["행복"] : List String) :=
  ⟨by simp, infer_emotion_no_failure_on_nonempty.2 ["행복"] ⟨"k", "l", []⟩ 3 (by simp)⟩

-- ----------------------------------------------------------------------
-- History builder lemmas
-- ----------------------------------------------------------------------

theorem omax_none_right : ∀ a : Option Int, omax a none = a := by
  intro a
  cases a <;> rfl

theorem omax_assoc : ∀ a b c : Option Int, omax (omax a b) c = omax a (omax b c) := by
  intro a b c
  cases a <;> cases b <;> cases c <;> simp [omax, max_assoc]

/-- Latest date of item `id` in column `f`, computed recursively: the
quantity `scanColumn` accumulates. -/
def colMax (f : LogRec → Option String) : List LogRec → String → Option Int
  | [], _ => none
  | r :: rs, id =>
      match f r, r.log_date with
      | some iid, some dt =>
          if iid == id then omax (some dt) (colMax f rs id) else colMax f rs id
      | _, _ => colMax f rs id

theorem dictGet_append {α : Type} (h₁ h₂ : List (String × α)) (k : String) :
    dictGet (h₁ ++ h₂) k =
      match dictGet h₁ k with
      | none => dictGet h₂ k
      | some v => some v := by
  induction h₁ with
  | nil => simp [dictGet]
  | cons p ps ih =>
      rw [List.cons_append, dictGet_cons, dictGet_cons]
      cases hp : (p.1 == k) <;> simp [ih]

theorem dictGet_mapReplace (h : List (String × Int)) (k : String) (dt : Int) (k' : String) :
    dictGet (h.map (fun p => if p.1 == k then (k, dt) else p)) k' =
      (dictGet h k').map (fun v => if k' == k then dt else v) := by
  induction h with
  | nil => simp [dictGet]
  | cons p ps ih =>
      rw [List.map_cons]
      simp only [beq_iff_eq] at ih
      by_cases hpk : p.1 = k
      · by_cases hpk' : p.1 = k'
        · have hkk' : k' = k := hpk'.symm.trans hpk
          simp [dictGet_cons, hpk, hpk', hkk']
        · have hkk : ¬(k = k') := fun hh => hpk' (hpk.trans hh)
          have hkk' : ¬(k' = k) := fun hh => hkk hh.symm
          simp [dictGet_cons, hpk, hpk', hkk, hkk', ih]
      · by_cases hpk' : p.1 = k'
        · have hkk' : ¬(k' = k) := fun hh => hpk (hpk'.trans hh)
          have hkk : ¬(k = k') := fun hh => hkk' hh.symm
          simp [dictGet_cons, hpk, hpk', hkk, hkk']
        · simp [dictGet_cons, hpk, hpk', ih]

theorem dictGet_histUpdate_same (h : List (String × Int)) (k : String) (dt : Int) :
    dictGet (histUpdate h k dt) k = omax (dictGet h k) (some dt) := by
  cases hg : dictGet h k with
  | none =>
      simp only [histUpdate, hg]
      rw [dictGet_append, hg]
      simp [dictGet_cons, omax]
  | some latest =>
      simp only [histUpdate, hg]
      by_cases hlt : dt > latest
      · rw [if_pos hlt, dictGet_mapReplace, hg]
        simp [omax, max_eq_right (le_of_lt hlt)]
      · rw [if_neg hlt, hg]
        simp [omax, max_eq_left (le_of_not_lt hlt)]

theorem dictGet_histUpdate_other (h : List (String × Int)) (k : String) (dt : Int)
    (k' : String) (hne : k' ≠ k) :
    dictGet (histUpdate h k dt) k' = dictGet h k' := by
  have hne' : ¬(k = k') := fun hh => hne hh.symm
  cases hg : dictGet h k with
  | none =>
      simp only [histUpdate, hg]
      rw [dictGet_append]
      cases hk' : dictGet h k' <;> simp [dictGet_cons, dictGet, hne, hne', omax]
  | some latest =>
      simp only [histUpdate, hg]
      by_cases hlt : dt > latest
      · rw [if_pos hlt, dictGet_mapReplace]
        cases hk' : dictGet h k' <;> simp [hk', hne]
      · rw [if_neg hlt]

theorem scanColumn_get (f : LogRec → Option String) :
    ∀ (rows : List LogRec) (h : List (String × Int)) (id : String),
      dictGet (scanColumn f h rows) id = omax (dictGet h id) (colMax f rows id) := by
  intro rows
  induction rows with
  | nil =>
      intro h id
      show dictGet h id = omax (dictGet h id) none
      rw [omax_none_right]
  | cons r rs ih =>
      intro h id
      show dictGet (scanColumn f
        (match f r, r.log_date with
         | some iid, some dt => histUpdate h iid dt
         | _, _ => h) rs) id = _
      rw [ih]
      show _ = omax (dictGet h id)
        (match f r, r.log_date with
         | some iid, some dt =>
             if iid == id then omax (some dt) (colMax f rs id) else colMax f rs id
         | _, _ => colMax f rs id)
      cases hf : f r with
      | none => rfl
      | some iid =>
          cases hd : r.log_date with
          | none => rfl
          | some dt =>
              by_cases hiid : iid = id
              · subst hiid
                rw [dictGet_histUpdate_same]
                simp [omax_assoc]
              · rw [dictGet_histUpdate_other h iid dt id (fun hh => hiid hh.symm)]
                simp [hiid]

theorem maxOf?_eq_none : ∀ {l : List Int}, maxOf? l = none ↔ l = [] := by
  intro l
  cases l with
  | nil => simp [maxOf?]
  | cons d ds =>
      simp only [maxOf?]
      constructor
      · intro h
        cases hm : maxOf? ds <;> rw [hm] at h <;> simp [omax] at h
      · intro h; cases h

theorem maxOf?_spec : ∀ {l : List Int} {d : Int}, maxOf? l = some d →
    d ∈ l ∧ ∀ e ∈ l, e ≤ d := by
  intro l
  induction l with
  | nil => intro d h; simp [maxOf?] at h
  | cons d0 ds ih =>
      intro d h
      simp only [maxOf?] at h
      cases hm : maxOf? ds with
      | none =>
          rw [hm] at h
          simp only [omax] at h
          injection h with h
          subst h
          have : ds = [] := maxOf?_eq_none.mp hm
          subst this
          simp
      | some m =>
          rw [hm] at h
          simp only [omax] at h
          injection h with h
          subst h
          obtain ⟨hm1, hm2⟩ := ih hm
          constructor
          · rcases max_choice d0 m with hc | hc
            · rw [hc]; exact List.mem_cons_self _ _
            · rw [hc]; exact List.mem_cons_of_mem _ hm1
          · intro e he
            rcases List.mem_cons.mp he with rfl | he'
            · exact le_max_left _ _
            · exact le_trans (hm2 e he') (le_max_right _ _)

theorem maxOf?_append : ∀ (a b : List Int), maxOf? (a ++ b) = omax (maxOf? a) (maxOf? b) := by
  intro a b
  induction a with
  | nil => simp [maxOf?, omax]
  | cons d as ih =>
      rw [List.cons_append]
      simp only [maxOf?]
      rw [ih, omax_assoc]

theorem colMax_eq_maxOf? (f : LogRec → Option String) :
    ∀ (rows : List LogRec) (id : String),
      colMax f rows id = maxOf? (occDatesField f rows id) := by
  intro rows
  induction rows with
  | nil => intro id; rfl
  | cons r rs ih =>
      intro id
      simp only [colMax, occDatesField, List.filterMap_cons]
      cases hf : f r with
      | none => exact ih id
      | some iid =>
          cases hd : r.log_date with
          | none => exact ih id
          | some dt =>
              by_cases hiid : iid = id
              · simp only [hiid, beq_self_eq_true, if_true, ite_true]
                show omax (some dt) (colMax f rs id) =
                  maxOf? (dt :: occDatesField f rs id)
                simp only [maxOf?]
                rw [ih id]
              · have : ¬((iid == id) = true) := by simpa using hiid
                simp only [this, if_false, ite_false]
                exact ih id

/-- C9: `build_history_from_df` maps an item id to `some d` exactly when the
id occurs in some record's quote or challenge field, and `d` is then the
maximum (most recent) record date at which it occurs across both fields;
ids occurring nowhere are absent from the mapping. -/
theorem build_history_latest_date_per_item :
    ∀ (rows : List LogRec) (id : String),
      dictGet (build_history_from_df rows) id = maxOf? (occDates rows id) ∧
      (dictGet (build_history_from_df rows) id = none ↔ occDates rows id = []) ∧
      (∀ d, dictGet (build_history_from_df rows) id = some d →
        d ∈ occDates rows id ∧ ∀ e ∈ occDates rows id, e ≤ d) := by
  intro rows id
  have hmain : dictGet (build_history_from_df rows) id = maxOf? (occDates rows id) := by
    unfold build_history_from_df
    cases rows with
    | nil => rfl
    | cons r rs =>
        rw [if_neg (by simp)]
        rw [scanColumn_get, scanColumn_get]
        show omax (omax (dictGet [] id) (colMax (fun r => r.quote_id) (r :: rs) id))
          (colMax (fun r => r.challenge_id) (r :: rs) id) = _
        have h0 : dictGet ([] : List (String × Int)) id = none := rfl
        rw [h0, colMax_eq_maxOf?, colMax_eq_maxOf?]
        show omax (maxOf? (occDatesField (fun r => r.quote_id) (r :: rs) id))
            (maxOf? (occDatesField (fun r => r.challenge_id) (r :: rs) id)) = _
        rw [occDates, maxOf?_append]
  refine ⟨hmain, ?_, ?_⟩
  · rw [hmain]
    exact maxOf?_eq_none.trans (by constructor <;> intro h <;> simp_all)
  · intro d hd
    rw [hmain] at hd
    exact maxOf?_spec hd

/-- Concrete records for the C9 witness: item "a" appears on day-5 and
day-9 records, item "b" only on the day-9 record. -/
def c9Rows : List LogRec :=
  [⟨some "a", none, some 5⟩, ⟨some "a", some "b", some 9⟩]

/-- Witness for C9: the history maps "a" to its latest date 9, which is an
occurrence date dominating all occurrence dates of "a". -/
theorem build_history_latest_date_per_item_witness :
    dictGet (build_history_from_df c9Rows) "a" = some 9 ∧
    (9 ∈ occDates c9Rows "a" ∧ ∀ e ∈ occDates c9Rows "a", e ≤ 9) :=
  ⟨by decide, (build_history_latest_date_per_item c9Rows "a").2.2 9 (by decide)⟩
